import Mathlib

/-!
Shallow embedding of mossum (src/mossum/mossum.py) and a verification of the
specification's claims about it.  Python integers are modelled as `ℤ`
(percentages produced by the parser are `ℕ` cast to `ℤ`), Python float
arithmetic in the link-color computation is modelled by exact rational
arithmetic over `ℚ`, Python lists as `List`, Python `None`-able values as
`Option`, and code that can raise as `Except`/`Option`-returning functions.
-/

namespace Mossum

/-- The `File` record (mossum.py lines 82-85): a matched file's (transformed)
name and its self-similarity percentage. -/
structure File where
  name : String
  percent : ℤ
deriving DecidableEq

/-- The `Match` record (mossum.py lines 70-79): one reported pairwise
similarity between two files, with the shared line count and detail URL. -/
structure Match where
  first : File
  second : File
  lines : ℤ
  url : String
deriving DecidableEq

/-- The `Match.percent` property (mossum.py lines 77-79):
`max(self.first.percent, self.second.percent)`. -/
def Match.percent (m : Match) : ℤ := max m.first.percent m.second.percent

/-- The `Results` record (mossum.py lines 64-67): one result page's display
name and its ordered list of matches (field renamed from `matches`, a Lean
keyword). -/
structure Results where
  name : String
  matches' : List Match
deriving DecidableEq

/-- The run configuration used by `Filter.include` (mossum.py lines 88-114):
the four optional name sets built from `args` in `Filter.__init__`, plus the
`args.min_lines` and `args.min_percent` thresholds.  A Python set is modelled
by a list used only through membership. -/
structure Config where
  filter : Option (List String)
  filteri : Option (List String)
  filterx : Option (List String)
  filterxi : Option (List String)
  min_lines : ℤ
  min_percent : ℤ

/-- `Filter.include` (mossum.py lines 98-114), renamed because `include` is a
Lean keyword.  The four name filters are tested in order, each returning
`False` early when it rejects the match; otherwise the line and percent
thresholds decide, both strict. -/
def includeMatch (cfg : Config) (m : Match) : Bool :=
  let first := m.first.name
  let second := m.second.name
  if (match cfg.filter with
      | some s => !(decide (first ∈ s)) || !(decide (second ∈ s))
      | none => false) then false
  else if (match cfg.filteri with
      | some s => !(decide (first ∈ s)) && !(decide (second ∈ s))
      | none => false) then false
  else if (match cfg.filterx with
      | some s => decide (first ∈ s) && decide (second ∈ s)
      | none => false) then false
  else if (match cfg.filterxi with
      | some s => decide (first ∈ s) || decide (second ∈ s)
      | none => false) then false
  else
    decide (cfg.min_lines < m.lines) &&
      (decide (cfg.min_percent < m.first.percent) ||
        decide (cfg.min_percent < m.second.percent))

/-- Growing one of the optional exclusion sets: an inactive (`none`) set may
stay inactive or become active, an active set may only gain members. -/
def OptGrows (o1 o2 : Option (List String)) : Prop :=
  match o1, o2 with
  | none, _ => True
  | some s1, some s2 => ∀ x, x ∈ s1 → x ∈ s2
  | some _, none => False

/-- Python `str.split()` with no argument, on a character list: split on runs
of whitespace, discarding empty pieces.  `acc` is the current word collected
in reverse. -/
def pyWordsAux : List Char → List Char → List (List Char)
  | acc, [] => if acc.isEmpty then [] else [acc.reverse]
  | acc, c :: cs =>
    if c.isWhitespace then
      if acc.isEmpty then pyWordsAux [] cs else acc.reverse :: pyWordsAux [] cs
    else pyWordsAux (c :: acc) cs

/-- Python `col.split()` used in `parse_col` (mossum.py line 122). -/
def pySplit (s : String) : List String :=
  (pyWordsAux [] s.data).map String.mk

/-- The first maximal run of digits in a character list, as found by
`re.search(r'\d+', per)` (mossum.py line 129); `none` when there is no
digit. -/
def firstDigitRun : List Char → Option (List Char)
  | [] => none
  | c :: cs =>
    if c.isDigit then some (c :: cs.takeWhile Char.isDigit) else firstDigitRun cs

/-- The integer denoted by a run of decimal digits, as computed by `int`. -/
def natValue (ds : List Char) : ℕ :=
  ds.foldl (fun n c => 10 * n + (c.toNat - 48)) 0

/-- Result of a successful Python `re.match` (mossum.py line 123), modelled
abstractly: the regex engine is an external collaborator, so `parse_col` is
parameterised by a matcher that returns the full matched text (`m.group()`)
and the list of capture-group strings (`m.groups()`).  Capture groups are
modelled as strings, i.e. as groups that participated in the match. -/
structure MatchObj where
  group : String
  groups : List String

/-- Models the default transformer `.*` (mossum.py line 36): it matches the
whole name with no capture groups. -/
def defaultTransformer : String → Option MatchObj :=
  fun s => some { group := s, groups := [] }

/-- The spec's `ParseError` kinds for `parse_col`: in the source the first is
the `ValueError` raised by unpacking `col.split()` into two variables
(mossum.py line 122), the second the `AttributeError` raised by calling
`.group()` on the `None` returned by `re.search` when the percentage token
has no digits (line 129).  Both carry the raw cell text. -/
inductive ParseError where
  | unpack (raw : String)
  | nodigits (raw : String)
deriving DecidableEq

/-- `parse_col` (mossum.py lines 121-130): split the cell into exactly two
tokens, transform the name token through the matcher, extract the first digit
run of the percentage token, and build a `File`. -/
def parse_col (reMatch : String → Option MatchObj) (col : String) :
    Except ParseError File :=
  match pySplit col with
  | [name, per] =>
    let name :=
      match reMatch name with
      | some mo => if mo.groups.isEmpty then mo.group else String.intercalate "_" mo.groups
      | none => name
    match firstDigitRun per.data with
    | some ds => Except.ok { name := name, percent := (natValue ds : ℤ) }
    | none => Except.error (ParseError.nodigits col)
  | _ => Except.error (ParseError.unpack col)

/-- Python `<` on characters: comparison of Unicode code points. -/
def charLtb (a b : Char) : Bool := decide (a.toNat < b.toNat)

/-- Python `<` on strings as lists of characters: lexicographic by code
point, a strict initial segment is smaller. -/
def strLtChars : List Char → List Char → Bool
  | [], [] => false
  | [], _ :: _ => true
  | _ :: _, [] => false
  | a :: as, b :: bs =>
    if charLtb a b then true else if charLtb b a then false else strLtChars as bs

/-- Python `<` on strings, as a boolean. -/
def strLtb (a b : String) : Bool := strLtChars a.data b.data

/-- `tuple(sorted([match.first.name, match.second.name]))` (mossum.py lines
192 and 194): the unordered pair key used by the merge filter.  Python's
`sorted` on a two-element list swaps exactly when the second element is
strictly below the first. -/
def matchKey (m : Match) : String × String :=
  if strLtb m.second.name m.first.name then (m.second.name, m.first.name)
  else (m.first.name, m.second.name)

/-- The concatenation `chain(*map(lambda x: x.matches, results))`
(mossum.py line 199): all matches, result by result, each result's internal
order preserved. -/
def allMatches (results : List Results) : List Match :=
  (results.map Results.matches').flatten

/-- `merge_filter` (mossum.py lines 191-194): keep the matches whose
unordered pair key occurs at least `min_matches` times.  The source builds
the set `{pair for pair, count in Counter(pairs).items() if count >= min}`
and filters on membership; `Counter(pairs).items()` iterates each distinct
pair with its occurrence count, modelled by `pairs.dedup` with `pairs.count`
(the set is used only through membership, so iteration order is
irrelevant). -/
def merge_filter (min_matches : ℤ) (ms : List Match) : List Match :=
  let pairs := ms.map matchKey
  let intereseting :=
    pairs.dedup.filter (fun p => decide (min_matches ≤ (pairs.count p : ℤ)))
  ms.filter (fun m => decide (matchKey m ∈ intereseting))

/-- `merge_results` (mossum.py lines 197-200). -/
def merge_results (min_matches : ℤ) (results : List Results) : Results :=
  { name := String.intercalate "+" (results.map Results.name)
  , matches' := merge_filter min_matches (allMatches results) }

/-- `s.add(name)` on the Python set built by `anonymize` (mossum.py lines
157-160), with first-insertion order as the canonical iteration order (the
claims never depend on the order, only on membership and distinctness). -/
def addName (s : List String) (n : String) : List String :=
  if n ∈ s then s else s ++ [n]

/-- The set `s` of all names occurring in the matches, built by the first
loop of `anonymize` (mossum.py lines 157-160). -/
def collect_names (ms : List Match) : List String :=
  ms.foldl (fun s m => addName (addName s m.first.name) m.second.name) []

/-- `new_names = dict(zip(s, random_names(len(s))))` (mossum.py line 162),
looked up at a name: the pseudonym paired with the first occurrence of `n`
in `olds` (`.getD n` is never reached for names of the matches, which all
occur in `olds`). -/
def name_map (olds news : List String) (n : String) : String :=
  ((olds.zip news).lookup n).getD n

/-- The rewrite loop of `anonymize` (mossum.py lines 164-166): every file
name is replaced through `new_names`.  `random_names` (lines 133-140) is an
external collaborator (the `faker` library); it is modelled by the parameter
`news`, a duplicate-free list of fresh names of the right length. -/
def anonymize (news : List String) (ms : List Match) : List Match :=
  let olds := collect_names ms
  ms.map fun m =>
    { m with
      first := { m.first with name := name_map olds news m.first.name }
      second := { m.second with name := name_map olds news m.second.name } }

/-- Python `int()` on a rational: truncation toward zero. -/
def pyInt (q : ℚ) : ℤ :=
  if q < 0 then -⌊-q⌋ else ⌊q⌋

/-- One hexadecimal digit, lowercase, as produced by Python `hex`. -/
def hexDigitChar (n : ℕ) : Char :=
  if n < 10 then Char.ofNat (48 + n) else Char.ofNat (87 + n)

/-- Hexadecimal digits of `n`, most significant first, `[]` for `0`; the
first argument is recursion fuel (`n` itself suffices). -/
def hexCharsAux : ℕ → ℕ → List Char
  | 0, _ => []
  | fuel + 1, n =>
    if n = 0 then [] else hexCharsAux fuel (n / 16) ++ [hexDigitChar (n % 16)]

/-- `hex(n)[2:]` for a nonnegative `n`: lowercase hex digits, `"0"` for 0. -/
def hexRepr (n : ℕ) : List Char :=
  if n = 0 then ['0'] else hexCharsAux n n

/-- `.zfill(2)` on a digit list: left-pad with `'0'` to length 2. -/
def zfill2 (ds : List Char) : List Char :=
  if ds.length ≥ 2 then ds else if ds.length = 1 then '0' :: ds else ['0', '0']

/-- The three `(high, low)` anchor channels of `link_color` (mossum.py lines
144-145): high `0xE9,0x01,0x01`, low `0xFF,0xE3,0x05`. -/
def linkAnchors : List (ℚ × ℚ) := [(233, 255), (1, 227), (1, 5)]

/-- The per-channel interpolated values of `link_color` (mossum.py lines
148-152), after renormalising the ratio when `min_percent != 100`.  Python
float arithmetic is modelled by exact rational arithmetic. -/
def link_channels (min_percent : ℤ) (rq : ℚ) : List ℚ :=
  let r := if min_percent ≠ 100
    then (rq - (min_percent : ℚ) / 100) / (1 - (min_percent : ℚ) / 100)
    else rq
  linkAnchors.map (fun hl => hl.1 * r + hl.2 * (1 - r))

/-- `link_color` (mossum.py lines 143-153): `'#' + ''.join(hex(int(c))[2:]
.zfill(2) for c in color)`. -/
def link_color (min_percent : ℤ) (rq : ℚ) : String :=
  String.mk ('#' :: ((link_channels min_percent rq).map
    (fun c => zfill2 (hexRepr (pyInt c).toNat))).flatten)

/-- One graph edge produced by `image` (mossum.py lines 230-249), carrying
the attributes computed there; the pydot/graphviz rendering itself is an
external collaborator. -/
structure Edge where
  src : String
  dst : String
  color : String
  label : Option String
deriving DecidableEq

/-- One iteration of the edge loop of `image` (mossum.py lines 234-249): the
edge's color comes from `link_color(m.percent / 100)`, the label is shown
unless `--hide-labels`, and the edge is added only when
`m.first.name != m.second.name or args.show_loops`. -/
def image_edge (show_loops hide_labels : Bool) (min_percent : ℤ) (m : Match) :
    Option Edge :=
  let color := link_color min_percent ((m.percent : ℚ) / 100)
  if m.first.name ≠ m.second.name ∨ show_loops = true then
    some { src := m.first.name
         , dst := m.second.name
         , color := color
         , label := if hide_labels then none
                    else some (toString m.percent ++ "% (" ++ toString m.lines ++ ")") }
  else none

/-- All edges added to the graph by `image` for a match list. -/
def image_edges (show_loops hide_labels : Bool) (min_percent : ℤ)
    (ms : List Match) : List Edge :=
  ms.filterMap (image_edge show_loops hide_labels min_percent)

/-- The labelled match list underlying `generate_report`'s grouping loop
(mossum.py lines 170-173): each result contributes its matches tagged with
the literal `(first.name, second.name)` pair and the result's own name. -/
def labeled (results : List Results) : List ((String × String) × (String × Match)) :=
  (results.map (fun res =>
    res.matches'.map (fun m => ((m.first.name, m.second.name), (res.name, m))))).flatten

/-- The keys of a Python dict in insertion order: first occurrences, in
order. -/
def keysInOrder {α : Type} [DecidableEq α] : List α → List α
  | [] => []
  | k :: ks => k :: (keysInOrder ks).filter (fun x => decide (x ≠ k))

/-- The `pairs` defaultdict of `generate_report` (mossum.py lines 170-173) as
an association list: keys in first-insertion order, each key's entries in
append order — exactly the content of a Python `defaultdict(list)` built by
that loop. -/
def groupPairs {α β : Type} [DecidableEq α] (l : List (α × β)) : List (α × List β) :=
  (keysInOrder (l.map Prod.fst)).map
    (fun k => (k, (l.filter (fun p => decide (p.1 = k))).map Prod.snd))

/-- Insertion step of a stable ascending sort: `x` goes before the first
element that is not strictly below it, so elements equal to `x` that were
already in place stay before it. -/
def pyInsert {α : Type} (lt : α → α → Bool) (x : α) : List α → List α
  | [] => [x]
  | y :: ys => if lt y x then y :: pyInsert lt x ys else x :: y :: ys

/-- A stable comparison sort, ascending with respect to `lt`: the model of
Python's `sorted` for a comparison that never raises.  Python's timsort is
also a stable comparison sort, and a stable comparison sort's output is
determined by the comparison, so the two agree. -/
def pySort {α : Type} (lt : α → α → Bool) : List α → List α
  | [] => []
  | x :: xs => pyInsert lt x (pySort lt xs)

/-- Python `<` on lists of strings: elementwise, first strict difference
decides, a strict initial segment is smaller. -/
def strListLt : List String → List String → Bool
  | _, [] => false
  | [], _ :: _ => true
  | a :: as, b :: bs =>
    if strLtb a b then true else if strLtb b a then false else strListLt as bs

/-- The sort key of the group sort in `generate_report` (mossum.py line 183):
`(len(x[1]), sorted(map(lambda x: x[0], x[1])))` — the number of contributing
entries and the sorted list of contributing result names. -/
def groupKey (g : (String × String) × List (String × Match)) : ℕ × List String :=
  (g.2.length, pySort strLtb (g.2.map Prod.fst))

/-- Python `<` on the `(int, list of str)` sort keys. -/
def groupKeyLt (k1 k2 : ℕ × List String) : Bool :=
  decide (k1.1 < k2.1) || (decide (k1.1 = k2.1) && strListLt k1.2 k2.2)

/-- The comparison used by `sorted(..., key=..., reverse=True)` on groups
(mossum.py lines 182-183): `reverse=True` is a stable descending sort, i.e. a
stable ascending sort for the flipped key comparison. -/
def groupLt (g1 g2 : (String × String) × List (String × Match)) : Bool :=
  groupKeyLt (groupKey g2) (groupKey g1)

/-- Python `<` on the `(name, match)` tuples sorted inside a group
(mossum.py line 185).  Tuple comparison compares the names first; when they
are equal it falls through to comparing the two `Match` objects, which define
no ordering, so CPython raises `TypeError` — modelled as `none`.  (Two
entries of one group are always distinct `Match` objects in the program:
every parsed row creates a fresh object.) -/
def entryCmp (a b : String × Match) : Option Bool :=
  if a.1 = b.1 then none else some (strLtb a.1 b.1)

/-- Fallible insertion step for the within-group entry sort: propagates the
`TypeError` of `entryCmp`. -/
def insertE (x : String × Match) : List (String × Match) → Option (List (String × Match))
  | [] => some [x]
  | y :: ys =>
    match entryCmp y x with
    | none => none
    | some true => (insertE x ys).map (fun l => y :: l)
    | some false => some (x :: y :: ys)

/-- `sorted(matches)` on one group's `(name, match)` entries (mossum.py line
185), as a fallible stable comparison sort.  On entries with pairwise
distinct names the comparison is a total strict order and any comparison
sort returns the same sorted list; when two entries share a name every
comparison sort (CPython's binary-insertion/timsort included) must compare
them to order them and raises, modelled as `none`. -/
def sortE : List (String × Match) → Option (List (String × Match))
  | [] => some []
  | x :: xs => (sortE xs).bind (insertE x)

/-- Sorting every group's entry list in turn, failing if any group's sort
fails — the per-group `sorted(matches)` calls of the output loop
(mossum.py lines 182-186). -/
def sortGroups : List ((String × String) × List (String × Match)) →
    Option (List ((String × String) × List (String × Match)))
  | [] => some []
  | g :: gs =>
    match sortE g.2, sortGroups gs with
    | some es, some rest => some ((g.1, es) :: rest)
    | _, _ => none

/-- `generate_report` (mossum.py lines 169-188) up to the text serialisation:
group the labelled matches by literal pair, sort the groups by
`(len, sorted names)` descending, and sort each group's entries; the value is
the ordered sequence of groups the report file is written from, `none` when
a within-group sort raises. -/
def generate_report (results : List Results) :
    Option (List ((String × String) × List (String × Match))) :=
  sortGroups (pySort groupLt (groupPairs (labeled results)))

/-- Concrete data for the spec's report example: `(A,B,5,url1)` from result
`r1` and `(A,B,3,url2)` from result `r2`. -/
def exM1 : Match := { first := { name := "A", percent := 90 }
                    , second := { name := "B", percent := 92 }
                    , lines := 5, url := "url1" }

def exM2 : Match := { first := { name := "A", percent := 91 }
                    , second := { name := "B", percent := 93 }
                    , lines := 3, url := "url2" }

def exResults : List Results := [{ name := "r1", matches' := [exM1] }
                                , { name := "r2", matches' := [exM2] }]

/-- A self-match (`first.name == second.name`) for exercising the loop rule. -/
def exSelf : Match := { first := { name := "A", percent := 95 }
                      , second := { name := "A", percent := 91 }
                      , lines := 7, url := "url3" }

def exRes3 : Results := { name := "r3", matches' := [exSelf] }

def exSelfResults : List Results := [exRes3]

/-- Concrete configurations for exercising the monotonicity claim: `exCfg2`
grows both exclusion sets and raises both thresholds relative to `exCfg1`. -/
def exCfg1 : Config :=
  { filter := none, filteri := none, filterx := some ["c"], filterxi := some ["d"]
  , min_lines := 0, min_percent := 50 }

def exCfg2 : Config :=
  { filter := none, filteri := none, filterx := some ["c", "e"]
  , filterxi := some ["d", "f"], min_lines := 1, min_percent := 60 }

/-! ### Order facts for the boolean comparisons -/

theorem charLtb_asymm {a b : Char} (h : charLtb a b = true) : charLtb b a = false := by
  simp only [charLtb, decide_eq_true_eq, decide_eq_false_iff_not] at h ⊢
  omega

theorem charLtb_trans {a b c : Char} (h1 : charLtb a b = true) (h2 : charLtb b c = true) :
    charLtb a c = true := by
  simp only [charLtb, decide_eq_true_eq] at h1 h2 ⊢
  omega

theorem charLtb_connex {a b : Char} (h1 : charLtb a b = false) (h2 : charLtb b a = false) :
    a = b := by
  simp only [charLtb, decide_eq_false_iff_not] at h1 h2
  have h : a.toNat = b.toNat := by omega
  simpa [Char.toNat, Char.ext_iff, UInt32.ext_iff] using h

theorem strLtChars_nil_right : ∀ l, strLtChars l [] = false
  | [] => rfl
  | _ :: _ => rfl

theorem strLtChars_irrefl : ∀ l, strLtChars l l = false
  | [] => rfl
  | a :: as => by
    simp only [strLtChars]
    have h : charLtb a a = false := by simp [charLtb]
    simp [h, strLtChars_irrefl as]

theorem strLtChars_asymm : ∀ l1 l2, strLtChars l1 l2 = true → strLtChars l2 l1 = false
  | [], [] => by simp [strLtChars]
  | [], _ :: _ => fun _ => rfl
  | _ :: _, [] => by simp [strLtChars]
  | a :: as, b :: bs => by
    intro h
    simp only [strLtChars] at h ⊢
    rcases hab : charLtb a b with _ | _
    · rcases hba : charLtb b a with _ | _
      · simp only [hab, hba, if_false] at h ⊢
        exact strLtChars_asymm as bs h
      · simp [hab, hba] at h
    · simp [hab, charLtb_asymm hab]

theorem strLtChars_trans : ∀ l1 l2 l3,
    strLtChars l1 l2 = true → strLtChars l2 l3 = true → strLtChars l1 l3 = true
  | _, l2, [] => by simp [strLtChars_nil_right]
  | [], l2, _ :: _ => by simp [strLtChars]
  | _ :: _, [], _ :: _ => by simp [strLtChars_nil_right]
  | a :: as, b :: bs, c :: cs => by
    intro h1 h2
    simp only [strLtChars] at h1 h2 ⊢
    rcases hab : charLtb a b with _ | _
    · rcases hba : charLtb b a with _ | _
      · -- a = b
        cases charLtb_connex hab hba
        simp only [hab, hba, if_false] at h1
        rcases hbc : charLtb a c with _ | _
        · rcases hcb : charLtb c a with _ | _
          · cases charLtb_connex hbc hcb
            simp only [hbc, hcb, if_false] at h2 ⊢
            exact strLtChars_trans as bs cs h1 h2
          · simp [hbc, hcb] at h2
        · simp [hbc]
      · simp [hab, hba] at h1
    · rcases hbc : charLtb b c with _ | _
      · rcases hcb : charLtb c b with _ | _
        · cases charLtb_connex hbc hcb
          simp [hab]
        · simp [hbc, hcb] at h2
      · simp [charLtb_trans hab hbc]

theorem strLtChars_connex : ∀ l1 l2,
    strLtChars l1 l2 = false → strLtChars l2 l1 = false → l1 = l2
  | [], [] => fun _ _ => rfl
  | [], _ :: _ => by simp [strLtChars]
  | _ :: _, [] => by simp [strLtChars]
  | a :: as, b :: bs => by
    intro h1 h2
    simp only [strLtChars] at h1 h2
    rcases hab : charLtb a b with _ | _
    · rcases hba : charLtb b a with _ | _
      · cases charLtb_connex hab hba
        simp only [hab, hba, if_false] at h1 h2
        rw [strLtChars_connex as bs h1 h2]
      · simp [hab, hba] at h2
    · simp [hab] at h1

theorem strLtb_asymm {a b : String} (h : strLtb a b = true) : strLtb b a = false :=
  strLtChars_asymm _ _ h

theorem strLtb_trans {a b c : String} (h1 : strLtb a b = true) (h2 : strLtb b c = true) :
    strLtb a c = true :=
  strLtChars_trans _ _ _ h1 h2

theorem strLtb_connex {a b : String} (h1 : strLtb a b = false) (h2 : strLtb b a = false) :
    a = b := by
  have h := strLtChars_connex a.data b.data h1 h2
  cases a
  cases b
  exact congrArg String.mk h

theorem strLtb_irrefl (a : String) : strLtb a a = false :=
  strLtChars_irrefl _

theorem strLtb_negtrans {a b c : String} (h1 : strLtb a b = false) (h2 : strLtb b c = false) :
    strLtb a c = false := by
  rcases hac : strLtb a c with _ | _
  · rfl
  · exfalso
    rcases hcb : strLtb c b with _ | _
    · obtain rfl := strLtb_connex h2 hcb
      simp [hac] at h1
    · simp [strLtb_trans hac hcb] at h1

theorem strListLt_nil_right : ∀ l, strListLt l [] = false
  | [] => rfl
  | _ :: _ => rfl

theorem strListLt_asymm : ∀ l1 l2, strListLt l1 l2 = true → strListLt l2 l1 = false
  | [], [] => by simp [strListLt]
  | [], _ :: _ => fun _ => rfl
  | _ :: _, [] => by simp [strListLt]
  | a :: as, b :: bs => by
    intro h
    simp only [strListLt] at h ⊢
    rcases hab : strLtb a b with _ | _
    · rcases hba : strLtb b a with _ | _
      · simp only [hab, hba, if_false] at h ⊢
        exact strListLt_asymm as bs h
      · simp [hab, hba] at h
    · simp [hab, strLtb_asymm hab]

theorem strListLt_trans : ∀ l1 l2 l3,
    strListLt l1 l2 = true → strListLt l2 l3 = true → strListLt l1 l3 = true
  | _, l2, [] => by simp [strListLt_nil_right]
  | [], l2, _ :: _ => by simp [strListLt]
  | _ :: _, [], _ :: _ => by simp [strListLt_nil_right]
  | a :: as, b :: bs, c :: cs => by
    intro h1 h2
    simp only [strListLt] at h1 h2 ⊢
    rcases hab : strLtb a b with _ | _
    · rcases hba : strLtb b a with _ | _
      · obtain rfl := strLtb_connex hab hba
        simp only [hab, hba, if_false] at h1
        rcases hbc : strLtb a c with _ | _
        · rcases hcb : strLtb c a with _ | _
          · obtain rfl := strLtb_connex hbc hcb
            simp only [hbc, hcb, if_false] at h2 ⊢
            exact strListLt_trans as bs cs h1 h2
          · simp [hbc, hcb] at h2
        · simp [hbc]
      · simp [hab, hba] at h1
    · rcases hbc : strLtb b c with _ | _
      · rcases hcb : strLtb c b with _ | _
        · obtain rfl := strLtb_connex hbc hcb
          simp [hab]
        · simp [hbc, hcb] at h2
      · simp [strLtb_trans hab hbc]

theorem strListLt_connex : ∀ l1 l2,
    strListLt l1 l2 = false → strListLt l2 l1 = false → l1 = l2
  | [], [] => fun _ _ => rfl
  | [], _ :: _ => by simp [strListLt]
  | _ :: _, [] => by simp [strListLt]
  | a :: as, b :: bs => by
    intro h1 h2
    simp only [strListLt] at h1 h2
    rcases hab : strLtb a b with _ | _
    · rcases hba : strLtb b a with _ | _
      · obtain rfl := strLtb_connex hab hba
        simp only [hab, hba, if_false] at h1 h2
        rw [strListLt_connex as bs h1 h2]
      · simp [hab, hba] at h2
    · simp [hab] at h1

theorem strListLt_negtrans {l1 l2 l3 : List String}
    (h1 : strListLt l1 l2 = false) (h2 : strListLt l2 l3 = false) :
    strListLt l1 l3 = false := by
  rcases hac : strListLt l1 l3 with _ | _
  · rfl
  · exfalso
    rcases hcb : strListLt l3 l2 with _ | _
    · obtain rfl := strListLt_connex l2 l3 h2 hcb
      simp [hac] at h1
    · simp [strListLt_trans _ _ _ hac hcb] at h1

theorem groupKeyLt_asymm {k1 k2 : ℕ × List String} (h : groupKeyLt k1 k2 = true) :
    groupKeyLt k2 k1 = false := by
  simp only [groupKeyLt, Bool.or_eq_true, Bool.and_eq_true, decide_eq_true_eq,
    Bool.or_eq_false_iff, Bool.and_eq_false_iff, decide_eq_false_iff_not] at h ⊢
  rcases h with h | ⟨he, hl⟩
  · exact ⟨by omega, Or.inl (by omega)⟩
  · exact ⟨by omega, Or.inr (strListLt_asymm _ _ hl)⟩

theorem groupKeyLt_negtrans {x y z : ℕ × List String}
    (h1 : groupKeyLt x y = false) (h2 : groupKeyLt y z = false) :
    groupKeyLt x z = false := by
  simp only [groupKeyLt, Bool.or_eq_false_iff, Bool.and_eq_false_iff,
    decide_eq_false_iff_not] at h1 h2 ⊢
  obtain ⟨h1a, h1b⟩ := h1
  obtain ⟨h2a, h2b⟩ := h2
  refine ⟨by omega, ?_⟩
  by_cases hxz : x.1 = z.1
  · have hxy : x.1 = y.1 := by omega
    have hyz : y.1 = z.1 := by omega
    rcases h1b with h1b | h1b
    · exact absurd hxy h1b
    · rcases h2b with h2b | h2b
      · exact absurd hyz h2b
      · exact Or.inr (strListLt_negtrans h1b h2b)
  · exact Or.inl hxz

/-! ### The stable insertion sort -/

theorem pyInsert_perm {α : Type} (lt : α → α → Bool) (x : α) :
    ∀ l, List.Perm (pyInsert lt x l) (x :: l)
  | [] => List.Perm.refl _
  | y :: ys => by
    simp only [pyInsert]
    rcases h : lt y x with _ | _
    · rw [if_neg (by simp [h])]
    · rw [if_pos (by simp [h])]
      exact ((pyInsert_perm lt x ys).cons y).trans (List.Perm.swap x y ys)

theorem pySort_perm {α : Type} (lt : α → α → Bool) :
    ∀ l, List.Perm (pySort lt l) l
  | [] => List.Perm.refl _
  | x :: xs => (pyInsert_perm lt x (pySort lt xs)).trans ((pySort_perm lt xs).cons x)

theorem pyInsert_pairwise {α : Type} (lt : α → α → Bool)
    (H1 : ∀ a b, lt a b = true → lt b a = false)
    (H2 : ∀ a b c, lt a b = false → lt b c = false → lt a c = false)
    (x : α) : ∀ l, l.Pairwise (fun a b => lt b a = false) →
      (pyInsert lt x l).Pairwise (fun a b => lt b a = false)
  | [], _ => List.pairwise_singleton _ x
  | y :: ys, hp => by
    obtain ⟨hy, hys⟩ := List.pairwise_cons.mp hp
    simp only [pyInsert]
    rcases h : lt y x with _ | _
    · rw [if_neg (by simp [h])]
      refine List.pairwise_cons.mpr ⟨?_, hp⟩
      intro z hz
      rcases List.mem_cons.mp hz with rfl | hz
      · exact h
      · exact H2 z y x (hy z hz) h
    · rw [if_pos (by simp [h])]
      refine List.pairwise_cons.mpr ⟨?_, pyInsert_pairwise lt H1 H2 x ys hys⟩
      intro z hz
      rcases List.mem_cons.mp ((pyInsert_perm lt x ys).mem_iff.mp hz) with hzx | hz
      · rw [hzx]
        exact H1 y x h
      · exact hy z hz

theorem pySort_pairwise {α : Type} (lt : α → α → Bool)
    (H1 : ∀ a b, lt a b = true → lt b a = false)
    (H2 : ∀ a b c, lt a b = false → lt b c = false → lt a c = false) :
    ∀ l : List α, (pySort lt l).Pairwise (fun a b => lt b a = false)
  | [] => List.Pairwise.nil
  | x :: xs => pyInsert_pairwise lt H1 H2 x _ (pySort_pairwise lt H1 H2 xs)

/-- Two permutations of each other have the same `pySort strLtb` image: the
sorted list of a multiset of strings is unique. -/
theorem pySort_str_eq_of_perm {l1 l2 : List String} (h : List.Perm l1 l2) :
    pySort strLtb l1 = pySort strLtb l2 := by
  haveI : IsAntisymm String (fun a b => strLtb b a = false) :=
    ⟨fun a b h1 h2 => strLtb_connex h2 h1⟩
  have s1 := pySort_pairwise strLtb (fun a b hab => strLtb_asymm hab)
    (fun a b c hab hbc => strLtb_negtrans hab hbc) l1
  have s2 := pySort_pairwise strLtb (fun a b hab => strLtb_asymm hab)
    (fun a b c hab hbc => strLtb_negtrans hab hbc) l2
  exact List.eq_of_perm_of_sorted
    ((pySort_perm strLtb l1).trans (h.trans (pySort_perm strLtb l2).symm)) s1 s2

/-! ### The fallible within-group entry sort -/

theorem strLtb_of_not_lt_of_ne {a b : String} (h1 : strLtb a b = false) (h2 : a ≠ b) :
    strLtb b a = true := by
  rcases hba : strLtb b a with _ | _
  · exact absurd (strLtb_connex h1 hba) h2
  · rfl

theorem entryCmp_eq_some {y x : String × Match} {b : Bool} (h : entryCmp y x = some b) :
    y.1 ≠ x.1 ∧ strLtb y.1 x.1 = b := by
  unfold entryCmp at h
  split at h
  · exact absurd h (by simp)
  · exact ⟨by assumption, Option.some.inj h⟩

theorem entryCmp_eq_none {y x : String × Match} (h : entryCmp y x = none) : y.1 = x.1 := by
  unfold entryCmp at h
  split at h
  · assumption
  · exact absurd h (by simp)

theorem insertE_perm : ∀ (x : String × Match) (l out), insertE x l = some out →
    List.Perm out (x :: l)
  | x, [], out => by
    intro h
    simp only [insertE, Option.some.injEq] at h
    rw [← h]
  | x, y :: ys, out => by
    intro h
    simp only [insertE] at h
    rcases hc : entryCmp y x with _ | b
    · rw [hc] at h
      exact absurd h (by simp)
    · rw [hc] at h
      rcases b with _ | _
      · simp only [Option.some.injEq] at h
        rw [← h]
      · rcases Option.map_eq_some'.mp h with ⟨mid, hmid, rfl⟩
        exact ((insertE_perm x ys mid hmid).cons y).trans (List.Perm.swap x y ys)

theorem insertE_sorted : ∀ (x : String × Match) (l out),
    l.Pairwise (fun a b => strLtb a.1 b.1 = true) → insertE x l = some out →
    out.Pairwise (fun a b => strLtb a.1 b.1 = true)
  | x, [], out => by
    intro _ h
    simp only [insertE, Option.some.injEq] at h
    rw [← h]
    exact List.pairwise_singleton _ x
  | x, y :: ys, out => by
    intro hp h
    obtain ⟨hy, hys⟩ := List.pairwise_cons.mp hp
    simp only [insertE] at h
    rcases hc : entryCmp y x with _ | b
    · rw [hc] at h
      exact absurd h (by simp)
    · rw [hc] at h
      obtain ⟨hne, hlt⟩ := entryCmp_eq_some hc
      rcases b with _ | _
      · simp only [Option.some.injEq] at h
        rw [← h]
        have hxy : strLtb x.1 y.1 = true := strLtb_of_not_lt_of_ne hlt hne
        refine List.pairwise_cons.mpr ⟨?_, hp⟩
        intro z hz
        rcases List.mem_cons.mp hz with hzy | hz
        · rw [hzy]
          exact hxy
        · exact strLtb_trans hxy (hy z hz)
      · rcases Option.map_eq_some'.mp h with ⟨mid, hmid, rfl⟩
        refine List.pairwise_cons.mpr ⟨?_, insertE_sorted x ys mid hys hmid⟩
        intro z hz
        rcases List.mem_cons.mp ((insertE_perm x ys mid hmid).mem_iff.mp hz) with hzx | hz
        · rw [hzx]
          exact hlt
        · exact hy z hz

theorem insertE_isSome : ∀ (x : String × Match) (l),
    l.Pairwise (fun a b => strLtb a.1 b.1 = true) →
    ((insertE x l).isSome = true ↔ x.1 ∉ l.map Prod.fst)
  | x, [], _ => by simp [insertE]
  | x, y :: ys, hp => by
    obtain ⟨hy, hys⟩ := List.pairwise_cons.mp hp
    simp only [insertE]
    rcases hc : entryCmp y x with _ | b
    · have he := entryCmp_eq_none hc
      simp [he.symm]
    · obtain ⟨hne, hlt⟩ := entryCmp_eq_some hc
      rcases b with _ | _
      · have hxy : strLtb x.1 y.1 = true := strLtb_of_not_lt_of_ne hlt hne
        simp only [Option.isSome_some, true_iff, List.map_cons, List.mem_cons]
        push_neg
        refine ⟨fun he => hne he.symm, ?_⟩
        intro hmem
        obtain ⟨z, hz, hzx⟩ := List.mem_map.mp hmem
        have := strLtb_trans hxy (hy z hz)
        rw [hzx] at this
        simp [strLtb_irrefl] at this
      · rw [Option.isSome_map']
        rw [insertE_isSome x ys hys]
        simp only [List.map_cons, List.mem_cons]
        constructor
        · intro hnm hor
          rcases hor with hx | hx
          · exact hne hx.symm
          · exact hnm hx
        · intro hnm hx
          exact hnm (Or.inr hx)

theorem sortE_perm : ∀ (l out), sortE l = some out → List.Perm out l
  | [], out => by
    intro h
    simp only [sortE, Option.some.injEq] at h
    rw [← h]
  | x :: xs, out => by
    intro h
    simp only [sortE] at h
    rcases hs : sortE xs with _ | mid
    · rw [hs] at h
      exact absurd h (by simp)
    · rw [hs] at h
      exact (insertE_perm x mid out h).trans ((sortE_perm xs mid hs).cons x)

theorem sortE_sorted : ∀ (l out), sortE l = some out →
    out.Pairwise (fun a b => strLtb a.1 b.1 = true)
  | [], out => by
    intro h
    simp only [sortE, Option.some.injEq] at h
    rw [← h]
    exact List.Pairwise.nil
  | x :: xs, out => by
    intro h
    simp only [sortE] at h
    rcases hs : sortE xs with _ | mid
    · rw [hs] at h
      exact absurd h (by simp)
    · rw [hs] at h
      exact insertE_sorted x mid out (sortE_sorted xs mid hs) h

theorem sortE_isSome : ∀ l, ((sortE l).isSome = true ↔ (l.map Prod.fst).Nodup)
  | [] => by simp [sortE]
  | x :: xs => by
    simp only [sortE]
    rcases hs : sortE xs with _ | mid
    · have hnd : ¬(List.map Prod.fst xs).Nodup := by
        intro hnd
        have h := (sortE_isSome xs).mpr hnd
        rw [hs] at h
        exact absurd h (by simp)
      simp only [Option.none_bind, Option.isSome_none, List.map_cons]
      constructor
      · intro h
        exact absurd h (by simp)
      · intro h
        exact absurd (List.nodup_cons.mp h).2 hnd
    · have hmid : (List.map Prod.fst xs).Nodup :=
        (sortE_isSome xs).mp (by rw [hs]; rfl)
      simp only [Option.some_bind]
      rw [insertE_isSome x mid (sortE_sorted xs mid hs)]
      have hpm : x.1 ∈ mid.map Prod.fst ↔ x.1 ∈ xs.map Prod.fst :=
        ((sortE_perm xs mid hs).map Prod.fst).mem_iff
      simp only [List.map_cons, List.nodup_cons]
      constructor
      · intro hnm
        exact ⟨fun hx => hnm (hpm.mpr hx), hmid⟩
      · intro hnd hx
        exact hnd.1 (hpm.mp hx)

/-! ### Per-group sorting of the whole report -/

theorem sortGroups_forall2 : ∀ (gs rep), sortGroups gs = some rep →
    List.Forall₂ (fun g r => r.1 = g.1 ∧ sortE g.2 = some r.2) gs rep
  | [], rep => by
    intro h
    simp only [sortGroups, Option.some.injEq] at h
    rw [← h]
    exact List.Forall₂.nil
  | g :: gs, rep => by
    intro h
    rcases he : sortE g.2 with _ | es <;> rcases hg : sortGroups gs with _ | rest <;>
      simp only [sortGroups, he, hg] at h
    · exact absurd h (by simp)
    · exact absurd h (by simp)
    · exact absurd h (by simp)
    · rw [← Option.some.inj h]
      exact List.Forall₂.cons ⟨rfl, he⟩ (sortGroups_forall2 gs rest hg)

theorem sortGroups_isSome_of : ∀ gs, (∀ g ∈ gs, (sortE g.2).isSome = true) →
    (sortGroups gs).isSome = true
  | [], _ => rfl
  | g :: gs, h => by
    have h1 := h g (List.mem_cons_self g gs)
    rcases he : sortE g.2 with _ | es
    · rw [he] at h1
      exact absurd h1 (by simp)
    · have h2 := sortGroups_isSome_of gs (fun g2 hg2 => h g2 (List.mem_cons_of_mem _ hg2))
      rcases hg : sortGroups gs with _ | rest
      · rw [hg] at h2
        exact absurd h2 (by simp)
      · simp only [sortGroups, he, hg]
        rfl

theorem sortGroups_fail_of : ∀ gs (g : (String × String) × List (String × Match)),
    g ∈ gs → sortE g.2 = none → sortGroups gs = none
  | [], g, hg, _ => absurd hg (List.not_mem_nil g)
  | g2 :: gs, g, hg, hnone => by
    rcases List.mem_cons.mp hg with hgg | hg2
    · have hn2 : sortE g2.2 = none := by rw [← hgg]; exact hnone
      rcases hrest : sortGroups gs with _ | rest <;> simp only [sortGroups, hn2, hrest]
    · have hn2 := sortGroups_fail_of gs g hg2 hnone
      rcases he : sortE g2.2 with _ | es <;> simp only [sortGroups, he, hn2]

theorem forall2_mem_right {α β : Type} {Q : α → β → Prop} :
    ∀ {l1 : List α} {l2 : List β}, List.Forall₂ Q l1 l2 → ∀ b ∈ l2, ∃ a ∈ l1, Q a b := by
  intro l1 l2 h
  induction h with
  | nil =>
    intro b hb
    exact absurd hb (List.not_mem_nil b)
  | cons hq _ ih =>
    intro b hb
    rcases List.mem_cons.mp hb with hbh | hb
    · exact ⟨_, List.mem_cons_self _ _, hbh ▸ hq⟩
    · obtain ⟨a, ha, hab⟩ := ih b hb
      exact ⟨a, List.mem_cons_of_mem _ ha, hab⟩

theorem forall2_mem_left {α β : Type} {Q : α → β → Prop} :
    ∀ {l1 : List α} {l2 : List β}, List.Forall₂ Q l1 l2 → ∀ a ∈ l1, ∃ b ∈ l2, Q a b := by
  intro l1 l2 h
  induction h with
  | nil =>
    intro a ha
    exact absurd ha (List.not_mem_nil a)
  | cons hq _ ih =>
    intro a ha
    rcases List.mem_cons.mp ha with hah | ha
    · exact ⟨_, List.mem_cons_self _ _, hah ▸ hq⟩
    · obtain ⟨b, hb, hab⟩ := ih a ha
      exact ⟨b, List.mem_cons_of_mem _ hb, hab⟩

theorem pairwise_transfer {α β : Type} {Q : α → β → Prop} {Ra : α → α → Prop}
    {Rb : β → β → Prop} (h : ∀ a b a2 b2, Q a b → Q a2 b2 → Ra a a2 → Rb b b2) :
    ∀ {l1 : List α} {l2 : List β}, List.Forall₂ Q l1 l2 → l1.Pairwise Ra → l2.Pairwise Rb := by
  intro l1 l2 hf
  induction hf with
  | nil => exact fun _ => List.Pairwise.nil
  | cons hq hf ih =>
    intro hp
    obtain ⟨hhead, htail⟩ := List.pairwise_cons.mp hp
    refine List.pairwise_cons.mpr ⟨?_, ih htail⟩
    intro b2 hb2
    obtain ⟨a2, ha2, hq2⟩ := forall2_mem_right hf b2 hb2
    exact h _ _ _ _ hq hq2 (hhead a2 ha2)

/-! ### Grouping -/

theorem keysInOrder_mem {α : Type} [DecidableEq α] : ∀ (l : List α) (x : α),
    x ∈ keysInOrder l ↔ x ∈ l
  | [], x => Iff.rfl
  | k :: ks, x => by
    simp only [keysInOrder, List.mem_cons, List.mem_filter, decide_eq_true_eq]
    constructor
    · rintro (rfl | ⟨hx, _⟩)
      · exact Or.inl rfl
      · exact Or.inr ((keysInOrder_mem ks x).mp hx)
    · rintro (rfl | hx)
      · exact Or.inl rfl
      · by_cases hxk : x = k
        · exact Or.inl hxk
        · exact Or.inr ⟨(keysInOrder_mem ks x).mpr hx, hxk⟩

theorem keysInOrder_nodup {α : Type} [DecidableEq α] : ∀ l : List α, (keysInOrder l).Nodup
  | [] => List.nodup_nil
  | k :: ks => by
    refine List.nodup_cons.mpr ⟨?_, (keysInOrder_nodup ks).filter _⟩
    intro hk
    have h := (List.mem_filter.mp hk).2
    simp at h

theorem groupPairs_keys_nodup {α β : Type} [DecidableEq α] (l : List (α × β)) :
    ((groupPairs l).map Prod.fst).Nodup := by
  unfold groupPairs
  rw [List.map_map]
  have hcomp : (Prod.fst ∘ fun k =>
      (k, (l.filter (fun p => decide (p.1 = k))).map Prod.snd)) = fun k : α => k := rfl
  rw [hcomp, List.map_id']
  exact keysInOrder_nodup (l.map Prod.fst)

theorem groupPairs_sound {α β : Type} [DecidableEq α] {l : List (α × β)}
    {g : α × List β} (hg : g ∈ groupPairs l) : ∀ v ∈ g.2, (g.1, v) ∈ l := by
  unfold groupPairs at hg
  obtain ⟨k, hk, rfl⟩ := List.mem_map.mp hg
  intro v hv
  obtain ⟨p, hp, rfl⟩ := List.mem_map.mp hv
  have hmem := List.mem_filter.mp hp
  have hp1 : p.1 = k := by simpa using hmem.2
  have hkp : ((k, p.2) : α × β) = p := by
    rw [← hp1]
  rw [hkp]
  exact hmem.1

theorem groupPairs_complete {α β : Type} [DecidableEq α] {l : List (α × β)}
    {k : α} {v : β} (h : (k, v) ∈ l) :
    ∃ g ∈ groupPairs l, g.1 = k ∧ v ∈ g.2 := by
  refine ⟨(k, (l.filter (fun p => decide (p.1 = k))).map Prod.snd), ?_, rfl, ?_⟩
  · unfold groupPairs
    exact List.mem_map.mpr
      ⟨k, (keysInOrder_mem _ k).mpr (List.mem_map.mpr ⟨(k, v), h, rfl⟩), rfl⟩
  · exact List.mem_map.mpr ⟨(k, v), List.mem_filter.mpr ⟨h, by simp⟩, rfl⟩

/-- Sorting a group's entries does not change its sort key: the length is
permutation-invariant and the sorted name list of a multiset of names is
unique. -/
theorem groupKey_perm_eq {g r : (String × String) × List (String × Match)}
    (hperm : List.Perm r.2 g.2) : groupKey r = groupKey g := by
  unfold groupKey
  rw [hperm.length_eq, pySort_str_eq_of_perm (hperm.map Prod.fst)]

/-! ### The match filter -/

theorem includeMatch_iff (cfg : Config) (m : Match) :
    includeMatch cfg m = true ↔
      (∀ s, cfg.filter = some s → m.first.name ∈ s ∧ m.second.name ∈ s) ∧
      (∀ s, cfg.filteri = some s → (m.first.name ∈ s ∨ m.second.name ∈ s)) ∧
      (∀ s, cfg.filterx = some s → ¬(m.first.name ∈ s ∧ m.second.name ∈ s)) ∧
      (∀ s, cfg.filterxi = some s → (m.first.name ∉ s ∧ m.second.name ∉ s)) ∧
      cfg.min_lines < m.lines ∧
      cfg.min_percent < max m.first.percent m.second.percent := by
  rcases hf : cfg.filter with _ | s1 <;> rcases hi : cfg.filteri with _ | s2 <;>
    rcases hx : cfg.filterx with _ | s3 <;> rcases hxi : cfg.filterxi with _ | s4 <;>
    simp [includeMatch, hf, hi, hx, hxi, lt_max_iff] <;> tauto

/-! ### Claims -/

/-- C1: `include(match, config)` returns `true` if and only if every active
rule passes conjunctively: when `filter` is set, both `first.name` and
`second.name` are members of `filter`; when `filteri` is set, at least one of
the two names is a member; when `filterx` is set, not both names are members;
when `filterxi` is set, neither name is a member; `match.lines > min_lines`
(strict); and `max(first.percent, second.percent) > min_percent` (strict). -/
theorem claim_C1 (cfg : Config) (m : Match) :
    includeMatch cfg m = true ↔
      (∀ s, cfg.filter = some s → m.first.name ∈ s ∧ m.second.name ∈ s) ∧
      (∀ s, cfg.filteri = some s → (m.first.name ∈ s ∨ m.second.name ∈ s)) ∧
      (∀ s, cfg.filterx = some s → ¬(m.first.name ∈ s ∧ m.second.name ∈ s)) ∧
      (∀ s, cfg.filterxi = some s → (m.first.name ∉ s ∧ m.second.name ∉ s)) ∧
      cfg.min_lines < m.lines ∧
      cfg.min_percent < max m.first.percent m.second.percent :=
  includeMatch_iff cfg m

/-- C4: filtering is monotonic: growing `filterx` or `filterxi` (also from
inactive to active) or raising `min_lines`/`min_percent`, with `filter` and
`filteri` unchanged, shrinks the included set — it can only remove matches,
never add one. -/
theorem claim_C4 (c1 c2 : Config) (ms : List Match)
    (hf : c1.filter = c2.filter) (hi : c1.filteri = c2.filteri)
    (hx : OptGrows c1.filterx c2.filterx) (hxi : OptGrows c1.filterxi c2.filterxi)
    (hl : c1.min_lines ≤ c2.min_lines) (hp : c1.min_percent ≤ c2.min_percent) :
    (ms.filter (includeMatch c2)) ⊆ ms.filter (includeMatch c1) := by
  intro m hm
  rw [List.mem_filter] at hm ⊢
  refine ⟨hm.1, ?_⟩
  obtain ⟨H1, H2, H3, H4, H5, H6⟩ := (includeMatch_iff c2 m).mp hm.2
  refine (includeMatch_iff c1 m).mpr ⟨?_, ?_, ?_, ?_, ?_, ?_⟩
  · intro s hs
    exact H1 s (by rw [← hf]; exact hs)
  · intro s hs
    exact H2 s (by rw [← hi]; exact hs)
  · intro s hs hmem
    rcases hx2 : c2.filterx with _ | s2
    · rw [hs, hx2] at hx
      simp only [OptGrows] at hx
    · rw [hs, hx2] at hx
      simp only [OptGrows] at hx
      exact H3 s2 hx2 ⟨hx _ hmem.1, hx _ hmem.2⟩
  · intro s hs
    rcases hx2 : c2.filterxi with _ | s2
    · rw [hs, hx2] at hxi
      simp only [OptGrows] at hxi
    · rw [hs, hx2] at hxi
      simp only [OptGrows] at hxi
      obtain ⟨hn1, hn2⟩ := H4 s2 hx2
      exact ⟨fun hmem => hn1 (hxi _ hmem), fun hmem => hn2 (hxi _ hmem)⟩
  · exact lt_of_le_of_lt hl H5
  · exact lt_of_le_of_lt hp H6

/-- Witness for C4 at concrete configurations and a concrete match list. -/
theorem claim_C4_witness :
    exCfg1.filter = exCfg2.filter ∧ exCfg1.filteri = exCfg2.filteri ∧
    OptGrows exCfg1.filterx exCfg2.filterx ∧
    OptGrows exCfg1.filterxi exCfg2.filterxi ∧
    exCfg1.min_lines ≤ exCfg2.min_lines ∧
    exCfg1.min_percent ≤ exCfg2.min_percent ∧
    ([exM1].filter (includeMatch exCfg2)) ⊆ [exM1].filter (includeMatch exCfg1) :=
  ⟨rfl, rfl, by simp [OptGrows, exCfg1, exCfg2], by simp [OptGrows, exCfg1, exCfg2],
    by decide, by decide,
    claim_C4 exCfg1 exCfg2 [exM1] rfl rfl (by simp [OptGrows, exCfg1, exCfg2])
      (by simp [OptGrows, exCfg1, exCfg2]) (by decide) (by decide)⟩

/-- Swapping the two files of a match does not change its unordered pair
key. -/
theorem matchKey_swap (a b : File) (lines : ℤ) (url : String) :
    matchKey { first := a, second := b, lines := lines, url := url }
      = matchKey { first := b, second := a, lines := lines, url := url } := by
  unfold matchKey
  rcases h1 : strLtb b.name a.name with _ | _ <;>
    rcases h2 : strLtb a.name b.name with _ | _
  · rw [if_neg (by simp [h1]), if_neg (by simp [h2])]
    rw [strLtb_connex h2 h1]
  · rw [if_neg (by simp [h1]), if_pos (by simp [h2])]
  · rw [if_pos (by simp [h1]), if_neg (by simp [h2])]
  · exact absurd (strLtb_asymm h2) (by simp [h1])

/-- The count-based reading of `merge_filter`: membership of a match's key in
the `intereseting` set is exactly `min_matches ≤` its occurrence count. -/
theorem merge_filter_eq_count (mm : ℤ) (ms : List Match) :
    merge_filter mm ms =
      ms.filter (fun m => decide (mm ≤ ((ms.map matchKey).count (matchKey m) : ℤ))) := by
  unfold merge_filter
  apply List.filter_congr
  intro m hm
  rw [decide_eq_decide]
  have hmem : matchKey m ∈ ms.map matchKey := List.mem_map_of_mem matchKey hm
  simp only [List.mem_filter, List.mem_dedup, decide_eq_true_eq]
  exact ⟨fun h => h.2, fun h => ⟨hmem, h⟩⟩

/-- C2: the merged match list is the concatenation of the inputs' match
lists, result by result in order, restricted to exactly the matches whose
unordered pair key occurs at least `minMatches` times in the whole
concatenation; the key is symmetric in `first`/`second`; and with
`minMatches = 1` the merged list is the concatenation unchanged. -/
theorem claim_C2 (results : List Results) (mm : ℤ) :
    ((merge_results mm results).matches' =
      (allMatches results).filter (fun m =>
        decide (mm ≤ (((allMatches results).map matchKey).count (matchKey m) : ℤ)))) ∧
    (∀ (a b : File) (lines : ℤ) (url : String),
      matchKey { first := a, second := b, lines := lines, url := url }
        = matchKey { first := b, second := a, lines := lines, url := url }) ∧
    (merge_results 1 results).matches' = allMatches results := by
  refine ⟨merge_filter_eq_count mm (allMatches results), matchKey_swap, ?_⟩
  show merge_filter 1 (allMatches results) = allMatches results
  rw [merge_filter_eq_count]
  apply List.filter_eq_self.mpr
  intro m hm
  have hmem : matchKey m ∈ (allMatches results).map matchKey :=
    List.mem_map_of_mem matchKey hm
  have hpos : 0 < ((allMatches results).map matchKey).count (matchKey m) :=
    List.count_pos_iff.mpr hmem
  simp only [decide_eq_true_eq]
  exact_mod_cast hpos

/-- Evaluation of `parse_col` on a cell with exactly two tokens and a digit
run in the percentage token. -/
theorem parse_col_ok (rm : String → Option MatchObj) (col nameTok perTok : String)
    (ds : List Char) (hsplit : pySplit col = [nameTok, perTok])
    (hds : firstDigitRun perTok.data = some ds) :
    parse_col rm col = Except.ok
      { name := match rm nameTok with
                | some mo => if mo.groups.isEmpty then mo.group
                             else String.intercalate "_" mo.groups
                | none => nameTok
      , percent := (natValue ds : ℤ) } := by
  unfold parse_col
  rw [hsplit]
  simp [hds]

/-- Evaluation of `parse_col` on a cell with exactly two tokens but no digit
in the percentage token. -/
theorem parse_col_err_nodigits (rm : String → Option MatchObj)
    (col nameTok perTok : String) (hsplit : pySplit col = [nameTok, perTok])
    (hds : firstDigitRun perTok.data = none) :
    parse_col rm col = Except.error (ParseError.nodigits col) := by
  unfold parse_col
  rw [hsplit]
  simp [hds]

/-- C5: on a cell that splits into exactly two tokens whose percentage token
has a digit run, `parse_col` returns a `File` whose percentage is the integer
value of the first digit run, and whose name is the name token transformed by
the pattern rules: groups joined by `_` when the match has capture groups,
the full match when it has none, the raw token when the pattern does not
match. -/
theorem claim_C5 (rm : String → Option MatchObj) (col nameTok perTok : String)
    (ds : List Char) (hsplit : pySplit col = [nameTok, perTok])
    (hds : firstDigitRun perTok.data = some ds) :
    ∃ f : File, parse_col rm col = Except.ok f ∧ f.percent = (natValue ds : ℤ) ∧
      (rm nameTok = none → f.name = nameTok) ∧
      (∀ mo, rm nameTok = some mo → mo.groups = [] → f.name = mo.group) ∧
      (∀ mo, rm nameTok = some mo → mo.groups ≠ [] →
        f.name = String.intercalate "_" mo.groups) := by
  refine ⟨_, parse_col_ok rm col nameTok perTok ds hsplit hds, rfl, ?_, ?_, ?_⟩
  · intro hnone
    simp only [hnone]
  · intro mo hmo hnil
    simp only [hmo]
    simp [hnil]
  · intro mo hmo hne
    simp only [hmo]
    simp [List.isEmpty_iff, hne]

/-- Witness for C5: the default transformer on the cell `"alice (87%)"`. -/
theorem claim_C5_witness :
    pySplit "alice (87%)" = ["alice", "(87%)"] ∧
    firstDigitRun "(87%)".data = some ['8', '7'] ∧
    (∃ f : File, parse_col defaultTransformer "alice (87%)" = Except.ok f ∧
      f.percent = (natValue ['8', '7'] : ℤ) ∧
      (defaultTransformer "alice" = none → f.name = "alice") ∧
      (∀ mo, defaultTransformer "alice" = some mo → mo.groups = [] →
        f.name = mo.group) ∧
      (∀ mo, defaultTransformer "alice" = some mo → mo.groups ≠ [] →
        f.name = String.intercalate "_" mo.groups)) :=
  ⟨by decide, by decide,
    claim_C5 defaultTransformer "alice (87%)" "alice" "(87%)" ['8', '7']
      (by decide) (by decide)⟩

/-- C6: `parse_col` fails (with the modelled `ParseError`) if and only if the
raw cell does not split into exactly two whitespace-separated tokens, or the
percentage token contains no run of digits. -/
theorem claim_C6 (rm : String → Option MatchObj) (col : String) :
    (∃ e, parse_col rm col = Except.error e) ↔
      ((pySplit col).length ≠ 2 ∨
        ∃ nameTok perTok, pySplit col = [nameTok, perTok] ∧
          firstDigitRun perTok.data = none) := by
  rcases hs : pySplit col with _ | ⟨n, _ | ⟨p, _ | ⟨q, rest⟩⟩⟩
  · unfold parse_col
    rw [hs]
    simp
  · unfold parse_col
    rw [hs]
    simp
  · rcases hd : firstDigitRun p.data with _ | ds
    · rw [parse_col_err_nodigits rm col n p hs hd]
      simp only [List.length_cons, List.length_nil]
      constructor
      · intro _
        exact Or.inr ⟨n, p, rfl, hd⟩
      · intro _
        exact ⟨ParseError.nodigits col, rfl⟩
    · rw [parse_col_ok rm col n p ds hs hd]
      simp only [List.length_cons, List.length_nil]
      constructor
      · rintro ⟨e, he⟩
        exact absurd he (by simp)
      · rintro (h2 | ⟨n2, p2, heq, hrun⟩)
        · exact absurd rfl h2
        · injection heq with h1 hrest
          injection hrest with h3 hnil2
          rw [← h3] at hrun
          rw [hd] at hrun
          exact Option.noConfusion hrun
  · unfold parse_col
    rw [hs]
    simp

/-! ### Anonymization -/

theorem addName_nodup {s : List String} (h : s.Nodup) (n : String) :
    (addName s n).Nodup := by
  unfold addName
  split
  · exact h
  · rw [List.nodup_append]
    refine ⟨h, List.nodup_singleton n, ?_⟩
    intro x hx hxn
    rw [List.mem_singleton.mp hxn] at hx
    exact absurd hx (by assumption)

theorem collect_names_aux_nodup : ∀ (ms : List Match) (s : List String), s.Nodup →
    (ms.foldl (fun s m => addName (addName s m.first.name) m.second.name) s).Nodup
  | [], _, h => h
  | m :: ms, s, h =>
    collect_names_aux_nodup ms (addName (addName s m.first.name) m.second.name)
      (addName_nodup (addName_nodup h m.first.name) m.second.name)

theorem collect_names_nodup (ms : List Match) : (collect_names ms).Nodup :=
  collect_names_aux_nodup ms [] List.nodup_nil

/-- A name of the collected set is looked up to a pseudonym that is one of
the supplied fresh names. -/
theorem lookup_zip_mem : ∀ (olds news : List String), olds.length ≤ news.length →
    ∀ a ∈ olds, ∃ v ∈ news, (olds.zip news).lookup a = some v
  | [], _, _, a, ha => absurd ha (List.not_mem_nil a)
  | o :: os, [], h, a, ha => by simp at h
  | o :: os, n :: ns, h, a, ha => by
    by_cases hao : a = o
    · exact ⟨n, List.mem_cons_self _ _, by simp [List.lookup, hao]⟩
    · rcases List.mem_cons.mp ha with h1 | h1
      · exact absurd h1 hao
      · obtain ⟨v, hv, hl⟩ := lookup_zip_mem os ns (by simpa using h) a h1
        refine ⟨v, List.mem_cons_of_mem _ hv, ?_⟩
        have hbeq : (a == o) = false := beq_eq_false_iff_ne.mpr hao
        simp only [List.zip_cons_cons, List.lookup, hbeq]
        exact hl

/-- The pseudonym map built from `zip` is injective on the collected names:
distinct old names get distinct fresh names. -/
theorem name_map_inj : ∀ (olds news : List String), olds.Nodup → news.Nodup →
    olds.length ≤ news.length → ∀ a ∈ olds, ∀ b ∈ olds,
      name_map olds news a = name_map olds news b → a = b
  | [], _, _, _, _, a, ha, _, _, _ => absurd ha (List.not_mem_nil a)
  | o :: os, [], _, _, h, a, ha, b, hb, _ => by simp at h
  | o :: os, n :: ns, ho, hn, h, a, ha, b, hb, heq => by
    obtain ⟨hno_o, hos⟩ := List.nodup_cons.mp ho
    obtain ⟨hnn_n, hns⟩ := List.nodup_cons.mp hn
    have hlen : os.length ≤ ns.length := by simpa using h
    have hmap_head : name_map (o :: os) (n :: ns) o = n := by
      simp [name_map, List.lookup]
    have hmap_tail : ∀ x, x ≠ o → name_map (o :: os) (n :: ns) x = name_map os ns x := by
      intro x hx
      have hbeq : (x == o) = false := beq_eq_false_iff_ne.mpr hx
      simp only [name_map, List.zip_cons_cons, List.lookup, hbeq]
      rfl
    by_cases hao : a = o <;> by_cases hbo : b = o
    · rw [hao, hbo]
    · exfalso
      have hbos : b ∈ os := (List.mem_cons.mp hb).resolve_left hbo
      obtain ⟨v, hv, hl⟩ := lookup_zip_mem os ns hlen b hbos
      have hmb : name_map os ns b = v := by simp [name_map, hl]
      rw [hao, hmap_head, hmap_tail b hbo, hmb] at heq
      cases heq
      exact hnn_n hv
    · exfalso
      have haos : a ∈ os := (List.mem_cons.mp ha).resolve_left hao
      obtain ⟨v, hv, hl⟩ := lookup_zip_mem os ns hlen a haos
      have hma : name_map os ns a = v := by simp [name_map, hl]
      rw [hbo, hmap_head, hmap_tail a hao, hma] at heq
      cases heq
      exact hnn_n hv
    · have haos : a ∈ os := (List.mem_cons.mp ha).resolve_left hao
      have hbos : b ∈ os := (List.mem_cons.mp hb).resolve_left hbo
      rw [hmap_tail a hao, hmap_tail b hbo] at heq
      exact name_map_inj os ns hos hns hlen a haos b hbos heq

theorem mem_zip_map {α β : Type} (f : α → β) : ∀ (l : List α) (p : α × β),
    p ∈ l.zip (l.map f) → p.2 = f p.1
  | [], p, hp => absurd hp (List.not_mem_nil p)
  | x :: xs, p, hp => by
    rcases List.mem_cons.mp (by simpa using hp) with h1 | h1
    · rw [h1]
    · exact mem_zip_map f xs p h1

/-- C9: anonymization is consistent and injective: with a duplicate-free
supply of fresh names of the right length, distinct original names map to
distinct new names, the match list keeps its length, and every file of every
match whose original name is `n` carries the same new name `name_map ... n`
(lines and URLs untouched). -/
theorem claim_C9 (ms : List Match) (news : List String)
    (hlen : (collect_names ms).length = news.length) (hnd : news.Nodup) :
    (∀ a ∈ collect_names ms, ∀ b ∈ collect_names ms,
      name_map (collect_names ms) news a = name_map (collect_names ms) news b → a = b) ∧
    (anonymize news ms).length = ms.length ∧
    (∀ p ∈ ms.zip (anonymize news ms),
      p.2.first.name = name_map (collect_names ms) news p.1.first.name ∧
      p.2.second.name = name_map (collect_names ms) news p.1.second.name ∧
      p.2.first.percent = p.1.first.percent ∧
      p.2.second.percent = p.1.second.percent ∧
      p.2.lines = p.1.lines ∧ p.2.url = p.1.url) := by
  refine ⟨name_map_inj _ _ (collect_names_nodup ms) hnd (le_of_eq hlen), ?_, ?_⟩
  · unfold anonymize
    exact List.length_map _ _
  · intro p hp
    unfold anonymize at hp
    have h2 := mem_zip_map (fun m =>
      { m with
        first := { m.first with name := name_map (collect_names ms) news m.first.name }
        second := { m.second with name := name_map (collect_names ms) news m.second.name } })
      ms p hp
    rw [h2]
    exact ⟨rfl, rfl, rfl, rfl, rfl, rfl⟩

/-- Witness for C9 at a concrete match list and fresh-name supply. -/
theorem claim_C9_witness :
    (collect_names [exM1]).length = (["X", "Y"] : List String).length ∧
    (["X", "Y"] : List String).Nodup ∧
    ((∀ a ∈ collect_names [exM1], ∀ b ∈ collect_names [exM1],
      name_map (collect_names [exM1]) ["X", "Y"] a
        = name_map (collect_names [exM1]) ["X", "Y"] b → a = b) ∧
    (anonymize ["X", "Y"] [exM1]).length = ([exM1] : List Match).length ∧
    (∀ p ∈ ([exM1] : List Match).zip (anonymize ["X", "Y"] [exM1]),
      p.2.first.name = name_map (collect_names [exM1]) ["X", "Y"] p.1.first.name ∧
      p.2.second.name = name_map (collect_names [exM1]) ["X", "Y"] p.1.second.name ∧
      p.2.first.percent = p.1.first.percent ∧
      p.2.second.percent = p.1.second.percent ∧
      p.2.lines = p.1.lines ∧ p.2.url = p.1.url)) :=
  ⟨by decide, by decide, claim_C9 [exM1] ["X", "Y"] (by decide) (by decide)⟩

/-! ### Self-matches: graph loop rule vs report -/

/-- Every labelled match of every result appears in the grouping under its
literal pair key. -/
theorem labeled_mem {rs : List Results} {res : Results} {m : Match}
    (hres : res ∈ rs) (hm : m ∈ res.matches') :
    ((m.first.name, m.second.name), (res.name, m)) ∈ labeled rs := by
  unfold labeled
  exact List.mem_flatten_of_mem (List.mem_map.mpr ⟨res, hres, rfl⟩)
    (List.mem_map.mpr ⟨m, hm, rfl⟩)

/-- C8: for a self-match (`first.name == second.name`), the graph-rendering
step emits an edge exactly when `show_loops` is enabled, while the report's
grouping always contains the match's entry: self-matches are never excluded
from the report. -/
theorem claim_C8 (sl hl : Bool) (mp : ℤ) (m : Match) (rs : List Results)
    (res : Results) (hself : m.first.name = m.second.name)
    (hres : res ∈ rs) (hm : m ∈ res.matches') :
    ((image_edge sl hl mp m).isSome = true ↔ sl = true) ∧
    (∃ g ∈ groupPairs (labeled rs), g.1 = (m.first.name, m.second.name) ∧
      (res.name, m) ∈ g.2) := by
  constructor
  · unfold image_edge
    rcases sl with _ | _ <;> simp [hself]
  · exact groupPairs_complete (labeled_mem hres hm)

/-- Witness for C8 on a concrete self-match with `show_loops` enabled. -/
theorem claim_C8_witness :
    exSelf.first.name = exSelf.second.name ∧ exRes3 ∈ exSelfResults ∧
    exSelf ∈ exRes3.matches' ∧
    (((image_edge true false 90 exSelf).isSome = true ↔ true = true) ∧
      (∃ g ∈ groupPairs (labeled exSelfResults),
        g.1 = (exSelf.first.name, exSelf.second.name) ∧
        (exRes3.name, exSelf) ∈ g.2)) :=
  ⟨by decide, by decide, by decide,
    claim_C8 true false 90 exSelf exSelfResults exRes3 (by decide) (by decide) (by decide)⟩

/-- C10: report generation returns normally if and only if, within each
literal-pair group, the contributing entries have pairwise distinct result
names; a repeated result name makes the within-group sort compare two
`Match` objects, which define no ordering, so the sort raises instead of
producing output. -/
theorem claim_C10 (rs : List Results) :
    (generate_report rs).isSome = true ↔
      ∀ g ∈ groupPairs (labeled rs), (g.2.map Prod.fst).Nodup := by
  unfold generate_report
  constructor
  · intro h g hg
    have hg2 : g ∈ pySort groupLt (groupPairs (labeled rs)) :=
      (pySort_perm _ _).mem_iff.mpr hg
    rcases hse : sortE g.2 with _ | es
    · rw [sortGroups_fail_of _ g hg2 hse] at h
      exact absurd h (by simp)
    · exact (sortE_isSome g.2).mp (by rw [hse]; rfl)
  · intro h
    apply sortGroups_isSome_of
    intro g hg
    exact (sortE_isSome g.2).mpr (h g ((pySort_perm _ _).mem_iff.mp hg))

/-! ### The report builder -/

theorem groupLt_asymm (a b : (String × String) × List (String × Match))
    (h : groupLt a b = true) : groupLt b a = false :=
  groupKeyLt_asymm h

theorem groupLt_negtrans (a b c : (String × String) × List (String × Match))
    (h1 : groupLt a b = false) (h2 : groupLt b c = false) : groupLt a c = false :=
  groupKeyLt_negtrans h2 h1

theorem forall2_map_fst {gs rep : List ((String × String) × List (String × Match))}
    (h : List.Forall₂ (fun g r => r.1 = g.1 ∧ sortE g.2 = some r.2) gs rep) :
    rep.map Prod.fst = gs.map Prod.fst := by
  induction h with
  | nil => rfl
  | cons hq _ ih => simp [hq.1, ih]

/-- C3: for every input, `generate_report` groups the labelled matches by the
literal ordered `(first.name, second.name)` pair (every output entry comes
from the input under its group's key, every labelled match lands in exactly
one group, keys are not repeated), orders the groups by the
`(count, sorted result names)` key descending, orders entries within a group
ascending by result name; in particular, on `[(A,B,5,url1)]` from `r1` and
`[(A,B,3,url2)]` from `r2` it produces exactly one group for the pair
`(A, B)` with two entries, `r1` before `r2`. -/
theorem claim_C3 (rs : List Results)
    (rep : List ((String × String) × List (String × Match)))
    (h : generate_report rs = some rep) :
    (∀ g ∈ rep, ∀ e ∈ g.2, (g.1, e) ∈ labeled rs) ∧
    (∀ k v, (k, v) ∈ labeled rs → ∃ g ∈ rep, g.1 = k ∧ v ∈ g.2) ∧
    (rep.map Prod.fst).Nodup ∧
    rep.Pairwise (fun g1 g2 => groupKeyLt (groupKey g1) (groupKey g2) = false) ∧
    (∀ g ∈ rep, g.2.Pairwise (fun e1 e2 => strLtb e1.1 e2.1 = true)) ∧
    generate_report exResults = some [(("A", "B"), [("r1", exM1), ("r2", exM2)])] := by
  unfold generate_report at h
  have hf2 := sortGroups_forall2 _ _ h
  refine ⟨?_, ?_, ?_, ?_, ?_, by decide⟩
  · intro g hg e he
    obtain ⟨g0, hg0, hkey, hsort⟩ := forall2_mem_right hf2 g hg
    have hperm := sortE_perm _ _ hsort
    have hg0grp : g0 ∈ groupPairs (labeled rs) := (pySort_perm _ _).mem_iff.mp hg0
    rw [hkey]
    exact groupPairs_sound hg0grp e (hperm.mem_iff.mp he)
  · intro k v hkv
    obtain ⟨g0, hg0, hk0, hv0⟩ := groupPairs_complete hkv
    have hg0ord : g0 ∈ pySort groupLt (groupPairs (labeled rs)) :=
      (pySort_perm _ _).mem_iff.mpr hg0
    obtain ⟨r, hr, hq1, hq2⟩ := forall2_mem_left hf2 g0 hg0ord
    exact ⟨r, hr, hq1.trans hk0, (sortE_perm _ _ hq2).mem_iff.mpr hv0⟩
  · rw [forall2_map_fst hf2]
    exact (((pySort_perm groupLt (groupPairs (labeled rs))).map Prod.fst).nodup_iff).mpr
      (groupPairs_keys_nodup (labeled rs))
  · have hpair := pySort_pairwise groupLt groupLt_asymm groupLt_negtrans
      (groupPairs (labeled rs))
    refine pairwise_transfer ?_ hf2 hpair
    intro g r g2 r2 hq hq2 hra
    have k1 : groupKey r = groupKey g := groupKey_perm_eq (sortE_perm _ _ hq.2)
    have k2 : groupKey r2 = groupKey g2 := groupKey_perm_eq (sortE_perm _ _ hq2.2)
    rw [k1, k2]
    exact hra
  · intro g hg
    obtain ⟨g0, hg0, hq1, hq2⟩ := forall2_mem_right hf2 g hg
    exact sortE_sorted _ _ hq2

/-- Witness for C3 at the spec's concrete example. -/
theorem claim_C3_witness :
    generate_report exResults = some [(("A", "B"), [("r1", exM1), ("r2", exM2)])] ∧
    ((∀ g ∈ [(("A", "B"), [("r1", exM1), ("r2", exM2)])], ∀ e ∈ g.2,
        (g.1, e) ∈ labeled exResults) ∧
      (∀ k v, (k, v) ∈ labeled exResults →
        ∃ g ∈ [(("A", "B"), [("r1", exM1), ("r2", exM2)])], g.1 = k ∧ v ∈ g.2) ∧
      (([(("A", "B"), [("r1", exM1), ("r2", exM2)])].map Prod.fst).Nodup) ∧
      List.Pairwise (fun g1 g2 => groupKeyLt (groupKey g1) (groupKey g2) = false)
        [(("A", "B"), [("r1", exM1), ("r2", exM2)])] ∧
      (∀ g ∈ [(("A", "B"), [("r1", exM1), ("r2", exM2)])],
        g.2.Pairwise (fun e1 e2 => strLtb e1.1 e2.1 = true)) ∧
      generate_report exResults = some [(("A", "B"), [("r1", exM1), ("r2", exM2)])]) :=
  ⟨by decide, claim_C3 exResults [(("A", "B"), [("r1", exM1), ("r2", exM2)])] (by decide)⟩

/-! ### Link color -/

theorem hexCharsAux_zero : ∀ fuel, hexCharsAux fuel 0 = []
  | 0 => rfl
  | _ + 1 => rfl

theorem hexCharsAux_small (fuel : ℕ) {n : ℕ} (h : n < 16) (hn : n ≠ 0) :
    hexCharsAux (fuel + 1) n = [hexDigitChar n] := by
  show (if n = 0 then [] else hexCharsAux fuel (n / 16) ++ [hexDigitChar (n % 16)])
    = [hexDigitChar n]
  rw [if_neg hn, Nat.div_eq_of_lt h, Nat.mod_eq_of_lt h, hexCharsAux_zero]
  rfl

theorem hexRepr_len {n : ℕ} (h : n ≤ 255) :
    (hexRepr n).length = 1 ∨ (hexRepr n).length = 2 := by
  by_cases h0 : n = 0
  · left
    simp [hexRepr, h0]
  · unfold hexRepr
    rw [if_neg h0]
    rcases hn : n with _ | m
    · exact absurd hn h0
    · by_cases h16 : m + 1 < 16
      · rw [hexCharsAux_small m h16 (by omega)]
        left
        rfl
      · right
        have hstep : hexCharsAux (m + 1) (m + 1)
            = hexCharsAux m ((m + 1) / 16) ++ [hexDigitChar ((m + 1) % 16)] := by
          show (if m + 1 = 0 then []
            else hexCharsAux m ((m + 1) / 16) ++ [hexDigitChar ((m + 1) % 16)]) = _
          rw [if_neg (by omega)]
        rcases hm : m with _ | k
        · rw [hm] at h16
          exact absurd (by omega) h16
        · subst hm
          rw [hstep]
          rw [hexCharsAux_small k (by omega) (by omega)]
          rfl

theorem zfill2_len {ds : List Char} (h : ds.length = 1 ∨ ds.length = 2) :
    (zfill2 ds).length = 2 := by
  unfold zfill2
  rcases h with h | h
  · rw [if_neg (by omega), if_pos h]
    simp [h]
  · rw [if_pos (by omega)]
    exact h

/-- C7: with `min_percent = 90`, ratio `1.0` yields the high anchor color
`#e90101` and ratio `0.9` (equal to `min_percent/100`, i.e. normalized 0)
yields the low anchor `#ffe305`; in general, for `0 ≤ min_percent < 100` the
ratio is renormalized to `(ratio - mp/100) / (1 - mp/100)` before linear
per-channel interpolation, and for a ratio between the threshold and `1` the
output is `#` followed by three 2-hex-digit channels, each channel truncated
to an integer in `0..255`. -/
theorem claim_C7 (mp : ℤ) (rq : ℚ) (h0 : 0 ≤ mp) (h100 : mp < 100)
    (hlo : (mp : ℚ) / 100 ≤ rq) (hhi : rq ≤ 1) :
    link_color 90 1 = "#e90101" ∧ link_color 90 (9 / 10) = "#ffe305" ∧
    link_channels mp rq = linkAnchors.map (fun hl =>
      hl.1 * ((rq - (mp : ℚ) / 100) / (1 - (mp : ℚ) / 100)) +
      hl.2 * (1 - (rq - (mp : ℚ) / 100) / (1 - (mp : ℚ) / 100))) ∧
    (∃ cs : List ℕ, cs = (link_channels mp rq).map (fun c => (pyInt c).toNat) ∧
      cs.length = 3 ∧ (∀ c ∈ cs, c ≤ 255) ∧
      link_color mp rq
        = String.mk ('#' :: (cs.map (fun c => zfill2 (hexRepr c))).flatten) ∧
      (∀ c ∈ cs, (zfill2 (hexRepr c)).length = 2)) := by
  have hanchor1 : link_color 90 1 = "#e90101" := by
    have hch : link_channels 90 1 = [233, 1, 1] := by
      norm_num [link_channels, linkAnchors]
    rw [link_color, hch]
    norm_num [pyInt]
    rfl
  have hanchor2 : link_color 90 (9 / 10) = "#ffe305" := by
    have hch : link_channels 90 (9 / 10) = [255, 227, 5] := by
      norm_num [link_channels, linkAnchors]
    rw [link_color, hch]
    norm_num [pyInt]
    rfl
  have hmp : mp ≠ 100 := by omega
  have hnorm : link_channels mp rq = linkAnchors.map (fun hl =>
      hl.1 * ((rq - (mp : ℚ) / 100) / (1 - (mp : ℚ) / 100)) +
      hl.2 * (1 - (rq - (mp : ℚ) / 100) / (1 - (mp : ℚ) / 100))) := by
    unfold link_channels
    rw [if_pos hmp]
  have hmpq : (mp : ℚ) < 100 := by exact_mod_cast h100
  have hd1 : (mp : ℚ) / 100 < 1 := (div_lt_one (by norm_num)).mpr hmpq
  have hden : (0 : ℚ) < 1 - (mp : ℚ) / 100 := by linarith
  set t : ℚ := (rq - (mp : ℚ) / 100) / (1 - (mp : ℚ) / 100) with ht
  have ht0 : 0 ≤ t := div_nonneg (by linarith) hden.le
  have ht1 : t ≤ 1 := by
    rw [ht, div_le_one hden]
    linarith
  have hch : link_channels mp rq
      = [233 * t + 255 * (1 - t), 1 * t + 227 * (1 - t), 1 * t + 5 * (1 - t)] := by
    rw [hnorm]
    simp [linkAnchors]
  have hbounds : ∀ c ∈ link_channels mp rq, 0 ≤ c ∧ c ≤ 255 := by
    rw [hch]
    intro c hc
    rcases List.mem_cons.mp hc with hc1 | hc
    · constructor <;> (rw [hc1]; linarith)
    rcases List.mem_cons.mp hc with hc1 | hc
    · constructor <;> (rw [hc1]; linarith)
    rcases List.mem_cons.mp hc with hc1 | hc
    · constructor <;> (rw [hc1]; linarith)
    · exact absurd hc (List.not_mem_nil c)
  have hpyb : ∀ c : ℚ, 0 ≤ c → c ≤ 255 → (pyInt c).toNat ≤ 255 := by
    intro c hc0 hc255
    unfold pyInt
    rw [if_neg (by linarith)]
    have h255 : (⌊(255 : ℚ)⌋ : ℤ) = 255 := by norm_num
    have hle : ⌊c⌋ ≤ 255 := by
      rw [← h255]
      exact Int.floor_le_floor hc255
    exact Int.toNat_le.mpr hle
  refine ⟨hanchor1, hanchor2, hnorm,
    (link_channels mp rq).map (fun c => (pyInt c).toNat), rfl, ?_, ?_, ?_, ?_⟩
  · rw [hch]
    rfl
  · intro c hc
    obtain ⟨q, hq, rfl⟩ := List.mem_map.mp hc
    obtain ⟨hq0, hq255⟩ := hbounds q hq
    exact hpyb q hq0 hq255
  · rw [link_color, List.map_map]
    rfl
  · intro c hc
    obtain ⟨q, hq, rfl⟩ := List.mem_map.mp hc
    obtain ⟨hq0, hq255⟩ := hbounds q hq
    exact zfill2_len (hexRepr_len (hpyb q hq0 hq255))

/-- Witness for C7 at `min_percent = 90` and ratio `1`. -/
theorem claim_C7_witness :
    (0 ≤ (90 : ℤ)) ∧ ((90 : ℤ) < 100) ∧ (((90 : ℤ) : ℚ) / 100 ≤ 1) ∧ ((1 : ℚ) ≤ 1) ∧
    (link_color 90 1 = "#e90101" ∧ link_color 90 (9 / 10) = "#ffe305" ∧
      link_channels 90 1 = linkAnchors.map (fun hl =>
        hl.1 * ((1 - ((90 : ℤ) : ℚ) / 100) / (1 - ((90 : ℤ) : ℚ) / 100)) +
        hl.2 * (1 - (1 - ((90 : ℤ) : ℚ) / 100) / (1 - ((90 : ℤ) : ℚ) / 100))) ∧
      (∃ cs : List ℕ, cs = (link_channels 90 1).map (fun c => (pyInt c).toNat) ∧
        cs.length = 3 ∧ (∀ c ∈ cs, c ≤ 255) ∧
        link_color 90 1
          = String.mk ('#' :: (cs.map (fun c => zfill2 (hexRepr c))).flatten) ∧
        (∀ c ∈ cs, (zfill2 (hexRepr c)).length = 2))) :=
  ⟨by norm_num, by norm_num, by norm_num, le_refl 1,
    claim_C7 90 1 (by norm_num) (by norm_num) (by norm_num) (le_refl 1)⟩

end Mossum
